import Mathlib

/-
Verification of the port-monitor core (src/src-tauri/src/lib.rs).

The two Tauri commands `list_ports` and `kill_process` are embedded as pure
Lean functions.  External effects (running `lsof`, `ps -p <pid> -o ...`,
`kill -9 <pid>`) are modelled as explicit inputs:

  * the `lsof` invocation is an `LsofOutcome` (io error / exit status plus
    the stdout split into lines, mirroring `String::from_utf8_lossy` +
    `.lines()`),
  * the `ps` invocation is a function `Nat → Option String` giving, per PID,
    either `none` (the `Command::output` call returned `Err`) or the raw
    stdout text (`ps`'s exit status is ignored by the source, so it is not
    modelled),
  * the `kill` invocation is a `KillOutcome` (io error / exit status plus
    stderr text).

`HashMap` iteration order (lines 84, 124 and 132 of the source) is not a
function of the map's contents; the two order-sensitive iterations (the
grouping loop at line 124 and `into_iter` at line 132) are therefore taken
as explicit reordering parameters `s1`, `s2`, constrained to be permutations
in every theorem.  The enrichment loop at line 84 mutates each entry
independently of the others, so it is embedded as a `map` (order
irrelevant).  `u32` values are modelled as `Nat` (string parsing checks the
`u32` bound explicitly).  Rust's `char::is_numeric` and `to_lowercase` are
modelled on ASCII (`Char.isDigit` / `Char.toLower`); all string comparison
is code-point lexicographic, which agrees with Rust's byte-wise `cmp` on
UTF-8 strings.
-/

namespace ProcessMonitor

/-! ### String utilities (kernel-computable models of the Rust std functions) -/

/-- Splitting a character list at every character satisfying `p`, keeping
empty pieces (model of Rust `str::split` with a char pattern). -/
def splitByAux (p : Char → Bool) : List Char → List Char → List String
  | [], acc => [⟨acc.reverse⟩]
  | c :: cs, acc =>
    if p c then ⟨acc.reverse⟩ :: splitByAux p cs [] else splitByAux p cs (c :: acc)

def splitBy (p : Char → Bool) (s : String) : List String :=
  splitByAux p s.data []

/-- Model of Rust `str::split_whitespace`: maximal non-empty runs between
whitespace, i.e. split at whitespace and drop empty pieces. -/
def splitWhitespace (s : String) : List String :=
  (splitBy (·.isWhitespace) s).filter (· ≠ "")

/-- Model of Rust `str::trim`. -/
def trimWs (s : String) : String :=
  ⟨((s.data.dropWhile (·.isWhitespace)).reverse.dropWhile (·.isWhitespace)).reverse⟩

/-- Model of Rust `char::to_lowercase` composed over a string
(`str::to_lowercase`), restricted to ASCII. -/
def toLowerStr (s : String) : String := ⟨s.data.map Char.toLower⟩

/-- Decimal value of a digit list. -/
def digitsVal (l : List Char) : Nat := l.foldl (fun a c => a * 10 + (c.toNat - 48)) 0

/-- Model of Rust `str::parse::<u32>()`: an optional leading `+`, then at
least one ASCII digit, value within the `u32` range; anything else is `Err`
(`none`). -/
def parseU32 (s : String) : Option Nat :=
  let t := match s.data with
    | '+' :: rest => rest
    | l => l
  if t = [] then none
  else if t.all (·.isDigit) then
    if digitsVal t ≤ 4294967295 then some (digitsVal t) else none
  else none

/-- Model of Rust `Vec::join` / the `format` of a separated list. -/
def joinSep (sep : String) : List String → String
  | [] => ""
  | [x] => x
  | x :: y :: xs => x ++ sep ++ joinSep sep (y :: xs)

/-- Code-point lexicographic order on character lists: the order Rust's
byte-wise `String::cmp` induces on UTF-8 strings. -/
def listCharLe : List Char → List Char → Bool
  | [], _ => true
  | _ :: _, [] => false
  | a :: as, b :: bs => if a = b then listCharLe as bs else decide (a < b)

def strLe (a b : String) : Bool := listCharLe a.data b.data

/-! ### Stable sorting

Rust's `slice::sort_by` / `sort_by_key` are stable sorts; every stable sort
computes the same output list, so a stable insertion sort is a faithful
model. -/

def insertBy (le : α → α → Bool) (x : α) : List α → List α
  | [] => [x]
  | y :: ys => if le x y then x :: y :: ys else y :: insertBy le x ys

def sortBy (le : α → α → Bool) : List α → List α
  | [] => []
  | x :: xs => insertBy le x (sortBy le xs)

/-! ### Data model (source lines 5-19 and the aggregate tuple at line 43) -/

structure PidInfo where
  pid : Nat
  ports : String
  user : String
  cpu : String
  mem : String
deriving DecidableEq

structure PortInfo where
  process_name : String
  command : String
  pids : List PidInfo
deriving DecidableEq

/-- The value type of `process_map` (line 43): the tuple
`(String, Vec<String>, Vec<String>, String, String, String, String)` with
components `.0` name, `.1` ports, `.2` protocols, `.3` command, `.4` user,
`.5` cpu, `.6` mem. -/
structure Entry where
  process_name : String
  ports : List String
  protocols : List String
  command : String
  user : String
  cpu : String
  mem : String
deriving DecidableEq

/-- One accepted socket record (lines 55-63). -/
structure RawRecord where
  process_name : String
  pid : Nat
  protocol : String
  port : String
deriving DecidableEq

/-! ### Association lists standing in for `HashMap` -/

def lookupKey {κ ε : Type} [DecidableEq κ] : List (κ × ε) → κ → Option ε
  | [], _ => none
  | (k, v) :: rest, k0 => if k = k0 then some v else lookupKey rest k0

def keysOf {κ ε : Type} (m : List (κ × ε)) : List κ := m.map (·.1)

/-- `entry(k).or_insert(..)` followed by an in-place mutation: update the
entry at `k` through `f` (which receives `none` when `k` is absent). -/
def upsert {κ ε : Type} [DecidableEq κ] (m : List (κ × ε)) (k : κ) (f : Option ε → ε) :
    List (κ × ε) :=
  match m with
  | [] => [(k, f none)]
  | (k0, v) :: rest => if k0 = k then (k0, f (some v)) :: rest else (k0, v) :: upsert rest k f

/-! ### Socket-listing parsing (source lines 48-81) -/

/-- Line 73 / line 76: push a value on a `Vec` only if not already present. -/
def pushNew (l : List String) (x : String) : List String :=
  if l.contains x then l else l ++ [x]

def emptyEntry (name : String) : Entry := ⟨name, [], [], "", "", "", ""⟩

/-- Lines 73-78: fold one accepted record into an entry. -/
def applyRecord (e : Entry) (r : RawRecord) : Entry :=
  { e with ports := pushNew e.ports r.port, protocols := pushNew e.protocols r.protocol }

/-- Lines 50-63: one line of `lsof` output to an accepted record, or nothing.
Fewer than 9 whitespace-separated fields skips the line; PID parse failure
falls back to 0 (`unwrap_or(0)`); the port is the substring after the last
`:` of field 8 and must be entirely numeric. -/
def parseRecord (line : String) : Option RawRecord :=
  let parts := splitWhitespace line
  if parts.length < 9 then none
  else
    let process_name := parts.getD 0 ""
    let pid := (parseU32 (parts.getD 1 "")).getD 0
    let protocol := parts.getD 7 ""
    let address := parts.getD 8 ""
    match (splitBy (· = ':') address).getLast? with
    | none => none
    | some portStr =>
      if portStr.data.all (·.isDigit) then
        some ⟨process_name, pid, protocol, portStr⟩
      else none

/-- Lines 64-78: `process_map.entry(pid).or_insert(default)` then the two
conditional pushes. -/
def insertRecord (m : List (Nat × Entry)) (r : RawRecord) : List (Nat × Entry) :=
  upsert m r.pid (fun o => applyRecord (o.getD (emptyEntry r.process_name)) r)

/-- One iteration of the parsing loop (lines 48-81). -/
def foldLine (m : List (Nat × Entry)) (line : String) : List (Nat × Entry) :=
  match parseRecord line with
  | none => m
  | some r => insertRecord m r

/-- The whole parsing loop: `for line in stdout.lines().skip(1)` is applied
by the caller (`list_ports` drops one header line first). -/
def buildProcessMap (lines : List String) : List (Nat × Entry) :=
  lines.foldl foldLine []

/-! ### Enrichment (source lines 84-119) -/

/-- The manual "split into at most 4 parts" loop (lines 93-110). -/
def splitMax4Step (acc : List String × String × Nat) (word : String) :
    List String × String × Nat :=
  match acc with
  | (parts, current, wc) =>
    if wc < 3 then (parts ++ [word], current, wc + 1)
    else (parts, (if current = "" then word else current ++ " " ++ word), wc)

def splitMax4 (ws : List String) : List String :=
  match ws.foldl splitMax4Step ([], "", 0) with
  | (parts, current, _) => if current = "" then parts else parts ++ [current]

/-- Lines 86-118 for a single PID: `psOut` is `none` when `Command::output`
returned `Err`; otherwise the raw stdout text (exit status is not examined
by the source). -/
def enrichEntry (psOut : Option String) (e : Entry) : Entry :=
  match psOut with
  | none => e
  | some out =>
    let parts := splitMax4 (splitWhitespace (trimWs out))
    if 4 ≤ parts.length then
      { e with user := parts.getD 0 "", cpu := parts.getD 1 "",
               mem := parts.getD 2 "", command := parts.getD 3 "" }
    else e

/-- Lines 84-119: each map entry is enriched independently of the others, so
`HashMap` iteration order is irrelevant here and the loop is a `map`. -/
def enrichMap (ps : Nat → Option String) (m : List (Nat × Entry)) : List (Nat × Entry) :=
  m.map (fun pe => (pe.1, enrichEntry (ps pe.1) pe.2))

/-! ### Grouping and report construction (source lines 121-158) -/

/-- `(pid, sorted ports, user, cpu, mem)` — the tuple pushed at line 128. -/
abbrev GTuple := Nat × List String × String × String × String

/-- Line 125: sort key `p.parse::<u32>().unwrap_or(0)`. -/
def portKey (p : String) : Nat := (parseU32 p).getD 0

def portLe (a b : String) : Bool := portKey a ≤ portKey b

def mkTuple (pid : Nat) (e : Entry) : GTuple :=
  (pid, sortBy portLe e.ports, e.user, e.cpu, e.mem)

def entryKey (pe : Nat × Entry) : String × String :=
  (pe.2.process_name, pe.2.command)

/-- Line 128: `process_groups.entry(key).or_insert_with(Vec::new).push(..)`. -/
def addToGroup (gs : List ((String × String) × List GTuple)) (k : String × String)
    (t : GTuple) : List ((String × String) × List GTuple) :=
  upsert gs k (fun o => o.getD [] ++ [t])

/-- Lines 124-129: fold the (reordered) process map into `process_groups`. -/
def groupFold (entries : List (Nat × Entry)) : List ((String × String) × List GTuple) :=
  entries.foldl (fun gs pe => addToGroup gs (entryKey pe) (mkTuple pe.1 pe.2)) []

def pidLe (a b : GTuple) : Bool := a.1 ≤ b.1

/-- Lines 140-146: the destructured tuple `(pid, port_list, user, cpu, mem)`
to a `PidInfo`, ports joined with `", "`. -/
def tupleToPidInfo (t : GTuple) : PidInfo :=
  { pid := t.1, ports := joinSep ", " t.2.1, user := t.2.2.1, cpu := t.2.2.2.1,
    mem := t.2.2.2.2 }

/-- Lines 134-153: one group to one `PortInfo` row; PIDs sorted ascending. -/
def mkRow (g : (String × String) × List GTuple) : PortInfo :=
  { process_name := g.1.1
    command := g.1.2
    pids := (sortBy pidLe g.2).map tupleToPidInfo }

/-- Line 158: case-insensitive comparison of process names. -/
def rowLe (a b : PortInfo) : Bool :=
  strLe (toLowerStr a.process_name) (toLowerStr b.process_name)

/-- The enriched aggregate map built from the socket-listing stdout
(header line dropped per `lines().skip(1)`). -/
def aggregateMap (lines : List String) (ps : Nat → Option String) : List (Nat × Entry) :=
  enrichMap ps (buildProcessMap (lines.drop 1))

/-- Lines 121-158 after a successful `lsof`: `s1` and `s2` are the `HashMap`
iteration orders of `process_map` (line 124) and `process_groups`
(line 132); theorems constrain them to permutations. -/
def reportCore (lines : List String) (ps : Nat → Option String)
    (s1 : List (Nat × Entry) → List (Nat × Entry))
    (s2 : List ((String × String) × List GTuple) → List ((String × String) × List GTuple)) :
    List PortInfo :=
  sortBy rowLe ((s2 (groupFold (s1 (aggregateMap lines ps)))).map mkRow)

/-! ### The two commands (source lines 21-164 and 166-203) -/

inductive LsofOutcome where
  | ioError (e : String)
  | completed (success : Bool) (stdoutLines : List String)
deriving DecidableEq

def list_ports (lsof : LsofOutcome) (ps : Nat → Option String)
    (s1 : List (Nat × Entry) → List (Nat × Entry))
    (s2 : List ((String × String) × List GTuple) → List ((String × String) × List GTuple)) :
    Except String (List PortInfo) :=
  match lsof with
  | .ioError e => .error ("Failed to execute lsof: " ++ e)
  | .completed success stdoutLines =>
    if success then .ok (reportCore stdoutLines ps s1 s2)
    else .error "lsof command failed"

inductive KillOutcome where
  | ioError (e : String)
  | completed (success : Bool) (stderrText : String)
deriving DecidableEq

def kill_process (pid : Nat) (kill : KillOutcome) : Except String String :=
  match kill with
  | .ioError e => .error ("Failed to kill process: " ++ e)
  | .completed success stderrText =>
    if success then .ok ("Process " ++ toString pid ++ " killed successfully")
    else .error ("Failed to kill process " ++ toString pid ++ ": " ++ stderrText)

instance : DecidableEq (Except String (List PortInfo)) := fun a b =>
  match a, b with
  | .ok x, .ok y => if h : x = y then .isTrue (by simp [h]) else .isFalse (by simp [h])
  | .error x, .error y => if h : x = y then .isTrue (by simp [h]) else .isFalse (by simp [h])
  | .ok _, .error _ => .isFalse (by simp)
  | .error _, .ok _ => .isFalse (by simp)

/-! ### Association-list lemmas -/

/-- Iterated `upsert` along a list, seen from a single key: the chain of
updates applied at that key. -/
def chainApply {α ε : Type} (h : Option ε → α → ε) (o : Option ε) (as : List α) : Option ε :=
  as.foldl (fun o a => some (h o a)) o

theorem lookupKey_upsert {κ ε : Type} [DecidableEq κ] (m : List (κ × ε)) (k k0 : κ)
    (f : Option ε → ε) :
    lookupKey (upsert m k f) k0 =
      if k = k0 then some (f (lookupKey m k)) else lookupKey m k0 := by
  induction m with
  | nil => by_cases h : k = k0 <;> simp [upsert, lookupKey, h]
  | cons kv rest ih =>
    obtain ⟨k1, v⟩ := kv
    by_cases h1 : k1 = k
    · subst h1
      by_cases h0 : k1 = k0 <;> simp [upsert, lookupKey, h0]
    · by_cases h0 : k1 = k0
      · subst h0
        have hne : ¬ k = k1 := fun h => h1 h.symm
        simp [upsert, lookupKey, h1, hne]
      · simp [upsert, lookupKey, h1, h0, ih]

theorem keysOf_upsert_of_mem {κ ε : Type} [DecidableEq κ] {m : List (κ × ε)} {k : κ}
    (f : Option ε → ε) (hk : k ∈ keysOf m) :
    keysOf (upsert m k f) = keysOf m := by
  induction m with
  | nil => simp [keysOf] at hk
  | cons kv rest ih =>
    obtain ⟨k1, v⟩ := kv
    by_cases h1 : k1 = k
    · subst h1; simp [upsert, keysOf]
    · have hne : ¬ k = k1 := fun h => h1 h.symm
      have hk' : k ∈ keysOf rest := by
        simpa [keysOf, hne] using hk
      have hstep : keysOf (upsert ((k1, v) :: rest) k f) = k1 :: keysOf (upsert rest k f) := by
        simp [upsert, h1, keysOf]
      rw [hstep, ih hk']
      rfl

theorem keysOf_upsert_of_not_mem {κ ε : Type} [DecidableEq κ] {m : List (κ × ε)} {k : κ}
    (f : Option ε → ε) (hk : k ∉ keysOf m) :
    keysOf (upsert m k f) = keysOf m ++ [k] := by
  induction m with
  | nil => simp [upsert, keysOf]
  | cons kv rest ih =>
    obtain ⟨k1, v⟩ := kv
    by_cases h1 : k1 = k
    · subst h1; exact absurd (by simp [keysOf]) hk
    · have hk' : k ∉ keysOf rest := fun h => hk (by simp [keysOf] at h ⊢; exact .inr h)
      have hstep : keysOf (upsert ((k1, v) :: rest) k f) = k1 :: keysOf (upsert rest k f) := by
        simp [upsert, h1, keysOf]
      rw [hstep, ih hk']
      rfl

theorem lookupKey_eq_none_iff {κ ε : Type} [DecidableEq κ] (m : List (κ × ε)) (k : κ) :
    lookupKey m k = none ↔ k ∉ keysOf m := by
  induction m with
  | nil => simp [lookupKey, keysOf]
  | cons kv rest ih =>
    obtain ⟨k1, v⟩ := kv
    by_cases h1 : k1 = k
    · subst h1; simp [lookupKey, keysOf]
    · have hne : ¬ k = k1 := fun h => h1 h.symm
      simp [lookupKey, keysOf, h1, hne, ih]

theorem lookupKey_mem {κ ε : Type} [DecidableEq κ] {m : List (κ × ε)} {k : κ} {v : ε}
    (h : lookupKey m k = some v) : (k, v) ∈ m := by
  induction m with
  | nil => simp [lookupKey] at h
  | cons kv rest ih =>
    obtain ⟨k1, v1⟩ := kv
    by_cases h1 : k1 = k
    · subst h1
      simp [lookupKey] at h
      simp [h]
    · simp [lookupKey, h1] at h
      simp [ih h]

theorem mem_lookupKey {κ ε : Type} [DecidableEq κ] {m : List (κ × ε)} {k : κ} {v : ε}
    (hnd : (keysOf m).Nodup) (h : (k, v) ∈ m) : lookupKey m k = some v := by
  induction m with
  | nil => simp at h
  | cons kv rest ih =>
    obtain ⟨k1, v1⟩ := kv
    have hnd' : k1 ∉ keysOf rest ∧ (keysOf rest).Nodup := by
      simpa [keysOf] using hnd
    rcases List.mem_cons.mp h with h | h
    · simp only [Prod.mk.injEq] at h
      obtain ⟨hk, hv⟩ := h
      subst hk; subst hv
      simp [lookupKey]
    · by_cases h1 : k1 = k
      · subst h1
        have : k1 ∈ keysOf rest := by
          simpa [keysOf] using List.mem_map_of_mem (fun p => p.1) h
        exact absurd this hnd'.1
      · simp [lookupKey, h1]
        exact ih hnd'.2 h

theorem keysOf_perm {κ ε : Type} {m1 m2 : List (κ × ε)} (h : m1.Perm m2) :
    (keysOf m1).Perm (keysOf m2) := by
  unfold keysOf
  exact h.map _

theorem lookupKey_perm_eq {κ ε : Type} [DecidableEq κ] {m1 m2 : List (κ × ε)}
    (h : m1.Perm m2) (hnd : (keysOf m1).Nodup) (k : κ) :
    lookupKey m1 k = lookupKey m2 k := by
  have hnd2 : (keysOf m2).Nodup := (keysOf_perm h).nodup_iff.mp hnd
  cases hv : lookupKey m1 k with
  | none =>
    have : k ∉ keysOf m2 := fun hk =>
      ((lookupKey_eq_none_iff m1 k).mp hv) (((keysOf_perm h).mem_iff).mpr hk)
    exact ((lookupKey_eq_none_iff m2 k).mpr this).symm
  | some v =>
    exact (mem_lookupKey hnd2 (h.mem_iff.mp (lookupKey_mem hv))).symm

theorem lookupKey_foldUpsert {α κ ε : Type} [DecidableEq κ] (g : α → κ) (h : Option ε → α → ε)
    (as : List α) (m : List (κ × ε)) (k : κ) :
    lookupKey (as.foldl (fun m a => upsert m (g a) (fun o => h o a)) m) k =
      chainApply h (lookupKey m k) (as.filter (fun a => g a = k)) := by
  induction as generalizing m with
  | nil => simp [chainApply]
  | cons a rest ih =>
    simp only [List.foldl_cons]
    rw [ih]
    by_cases hk : g a = k
    · simp [List.filter_cons, hk, chainApply, lookupKey_upsert]
    · simp [List.filter_cons, hk, lookupKey_upsert]

theorem keysOf_foldUpsert_nodup {α κ ε : Type} [DecidableEq κ] (g : α → κ)
    (h : Option ε → α → ε) (as : List α) (m : List (κ × ε))
    (hnd : (keysOf m).Nodup) :
    (keysOf (as.foldl (fun m a => upsert m (g a) (fun o => h o a)) m)).Nodup := by
  induction as generalizing m with
  | nil => exact hnd
  | cons a rest ih =>
    simp only [List.foldl_cons]
    refine ih _ ?_
    by_cases hk : g a ∈ keysOf m
    · rw [keysOf_upsert_of_mem _ hk]; exact hnd
    · rw [keysOf_upsert_of_not_mem _ hk]
      simpa [List.nodup_append] using ⟨hnd, hk⟩

/-! ### Stable-insertion-sort lemmas -/

theorem insertBy_perm (le : α → α → Bool) (x : α) (l : List α) :
    (insertBy le x l).Perm (x :: l) := by
  induction l with
  | nil => simp [insertBy]
  | cons y ys ih =>
    by_cases h : le x y
    · simp [insertBy, h]
    · simp only [insertBy, h, if_false]
      exact ((ih.cons y).trans (List.Perm.swap x y ys))

theorem sortBy_perm (le : α → α → Bool) (l : List α) : (sortBy le l).Perm l := by
  induction l with
  | nil => simp [sortBy]
  | cons x xs ih => exact (insertBy_perm le x (sortBy le xs)).trans (ih.cons x)

theorem mem_sortBy {le : α → α → Bool} {l : List α} {a : α} :
    a ∈ sortBy le l ↔ a ∈ l := (sortBy_perm le l).mem_iff

theorem mem_insertBy {le : α → α → Bool} {l : List α} {x a : α} :
    a ∈ insertBy le x l ↔ a = x ∨ a ∈ l := by
  rw [(insertBy_perm le x l).mem_iff]; simp

theorem insertBy_pairwise {le : α → α → Bool}
    (htrans : ∀ a b c, le a b = true → le b c = true → le a c = true)
    (htot : ∀ a b, le a b = true ∨ le b a = true)
    {l : List α} (x : α) (hl : l.Pairwise (le · ·)) :
    (insertBy le x l).Pairwise (le · ·) := by
  induction l with
  | nil => simp [insertBy]
  | cons y ys ih =>
    rcases List.pairwise_cons.mp hl with ⟨hy, hys⟩
    by_cases h : le x y
    · simp only [insertBy, h, if_true]
      refine List.pairwise_cons.mpr ⟨?_, hl⟩
      intro z hz
      rcases List.mem_cons.mp hz with rfl | hz
      · exact h
      · exact htrans x y z h (hy z hz)
    · simp only [insertBy, h, if_false]
      refine List.pairwise_cons.mpr ⟨?_, ih hys⟩
      intro z hz
      rcases mem_insertBy.mp hz with hzx | hz
      · cases hzx
        rcases htot x y with h1 | h1
        · exact absurd h1 h
        · exact h1
      · exact hy z hz

theorem sortBy_pairwise {le : α → α → Bool}
    (htrans : ∀ a b c, le a b = true → le b c = true → le a c = true)
    (htot : ∀ a b, le a b = true ∨ le b a = true)
    (l : List α) : (sortBy le l).Pairwise (le · ·) := by
  induction l with
  | nil => simp [sortBy]
  | cons x xs ih => exact insertBy_pairwise htrans htot x ih

theorem eq_of_perm_of_pairwise {le : α → α → Bool} {l1 l2 : List α}
    (h : l1.Perm l2) (h1 : l1.Pairwise (le · ·)) (h2 : l2.Pairwise (le · ·))
    (hanti : ∀ a ∈ l1, ∀ b ∈ l1, le a b = true → le b a = true → a = b) : l1 = l2 := by
  induction l1 generalizing l2 with
  | nil => simpa using h.nil_eq
  | cons x xs ih =>
    cases l2 with
    | nil => exact absurd h.symm (by simp)
    | cons y ys =>
      rcases List.pairwise_cons.mp h1 with ⟨hx, hxs⟩
      rcases List.pairwise_cons.mp h2 with ⟨hy, hys⟩
      by_cases hxy : x = y
      · subst hxy
        have htail : xs.Perm ys := h.cons_inv
        have : xs = ys := by
          refine ih htail hxs hys ?_
          intro a ha b hb
          exact hanti a (List.mem_cons_of_mem _ ha) b (List.mem_cons_of_mem _ hb)
        rw [this]
      · have hxl2 : x ∈ y :: ys := h.mem_iff.mp (List.mem_cons_self x xs)
        have hyl1 : y ∈ x :: xs := h.symm.mem_iff.mp (List.mem_cons_self y ys)
        have hxys : x ∈ ys := by
          rcases List.mem_cons.mp hxl2 with h' | h'
          · exact absurd h' hxy
          · exact h'
        have hyxs : y ∈ xs := by
          rcases List.mem_cons.mp hyl1 with h' | h'
          · exact absurd h'.symm hxy
          · exact h'
        exact absurd (hanti x (List.mem_cons_self x xs) y hyl1 (hx y hyxs) (hy x hxys)) hxy

/-! ### Order facts for the three comparators -/

theorem portLe_trans (a b c : String) (h1 : portLe a b = true) (h2 : portLe b c = true) :
    portLe a c = true := by
  simp [portLe] at h1 h2 ⊢
  exact le_trans h1 h2

theorem portLe_total (a b : String) : portLe a b = true ∨ portLe b a = true := by
  simp [portLe]
  exact Nat.le_total (portKey a) (portKey b)

theorem pidLe_trans (a b c : GTuple) (h1 : pidLe a b = true) (h2 : pidLe b c = true) :
    pidLe a c = true := by
  simp [pidLe] at h1 h2 ⊢
  exact le_trans h1 h2

theorem pidLe_total (a b : GTuple) : pidLe a b = true ∨ pidLe b a = true := by
  simp [pidLe]
  exact Nat.le_total a.1 b.1

theorem listCharLe_trans : ∀ a b c : List Char,
    listCharLe a b = true → listCharLe b c = true → listCharLe a c = true := by
  intro a
  induction a with
  | nil => intro b c _ _; simp [listCharLe]
  | cons x xs ih =>
    intro b c h1 h2
    cases b with
    | nil => simp [listCharLe] at h1
    | cons y ys =>
      cases c with
      | nil => simp [listCharLe] at h2
      | cons z zs =>
        by_cases hxy : x = y
        · subst hxy
          simp only [listCharLe, if_pos rfl] at h1
          by_cases hyz : x = z
          · subst hyz
            simp only [listCharLe, if_pos rfl] at h2 ⊢
            exact ih ys zs h1 h2
          · simpa [listCharLe, hyz] using (by simpa [listCharLe, hyz] using h2)
        · simp only [listCharLe, if_neg hxy] at h1
          by_cases hyz : y = z
          · subst hyz
            simpa [listCharLe, hxy] using h1
          · simp only [listCharLe, if_neg hyz] at h2
            have hlt : x < z := lt_trans (of_decide_eq_true h1) (of_decide_eq_true h2)
            have hxz : ¬ x = z := ne_of_lt hlt
            simp [listCharLe, hxz, hlt]

theorem listCharLe_total : ∀ a b : List Char,
    listCharLe a b = true ∨ listCharLe b a = true := by
  intro a
  induction a with
  | nil => intro b; left; simp [listCharLe]
  | cons x xs ih =>
    intro b
    cases b with
    | nil => right; simp [listCharLe]
    | cons y ys =>
      by_cases hxy : x = y
      · subst hxy
        simpa [listCharLe] using ih ys
      · rcases lt_or_gt_of_ne hxy with hlt | hgt
        · left; simp [listCharLe, hxy, hlt]
        · right
          have hyx : ¬ y = x := fun h => hxy h.symm
          simp [listCharLe, hyx, hgt]

theorem listCharLe_antisymm : ∀ a b : List Char,
    listCharLe a b = true → listCharLe b a = true → a = b := by
  intro a
  induction a with
  | nil => intro b h1 _; cases b with
    | nil => rfl
    | cons y ys => simp [listCharLe] at *
  | cons x xs ih =>
    intro b h1 h2
    cases b with
    | nil => simp [listCharLe] at h1
    | cons y ys =>
      by_cases hxy : x = y
      · subst hxy
        simp only [listCharLe, if_pos rfl] at h1 h2
        rw [ih ys h1 h2]
      · have hyx : ¬ y = x := fun h => hxy h.symm
        simp only [listCharLe, if_neg hxy] at h1
        simp only [listCharLe, if_neg hyx] at h2
        exact absurd (of_decide_eq_true h2) (not_lt_of_gt (of_decide_eq_true h1))

theorem strLe_trans (a b c : String) (h1 : strLe a b = true) (h2 : strLe b c = true) :
    strLe a c = true := listCharLe_trans a.data b.data c.data h1 h2

theorem strLe_total (a b : String) : strLe a b = true ∨ strLe b a = true :=
  listCharLe_total a.data b.data

theorem strLe_antisymm {a b : String} (h1 : strLe a b = true) (h2 : strLe b a = true) :
    a = b := by
  cases a; cases b
  exact congrArg String.mk (listCharLe_antisymm _ _ h1 h2)

theorem rowLe_trans (a b c : PortInfo) (h1 : rowLe a b = true) (h2 : rowLe b c = true) :
    rowLe a c = true := strLe_trans _ _ _ h1 h2

theorem rowLe_total (a b : PortInfo) : rowLe a b = true ∨ rowLe b a = true :=
  strLe_total _ _

/-! ### Characterizing the process map -/

/-- The accepted socket records, in stdout order. -/
def rawRecords (lines : List String) : List RawRecord := lines.filterMap parseRecord

theorem buildProcessMap_eq_foldRecords (lines : List String) :
    buildProcessMap lines = (rawRecords lines).foldl insertRecord [] := by
  suffices h : ∀ m : List (Nat × Entry),
      lines.foldl foldLine m = (rawRecords lines).foldl insertRecord m from h []
  induction lines with
  | nil => intro m; simp [rawRecords]
  | cons line rest ih =>
    intro m
    simp only [List.foldl_cons, rawRecords, List.filterMap_cons]
    cases hp : parseRecord line with
    | none => simpa [foldLine, hp, rawRecords] using ih m
    | some r => simpa [foldLine, hp, rawRecords] using ih (insertRecord m r)

theorem lookupKey_buildProcessMap (lines : List String) (p : Nat) :
    lookupKey (buildProcessMap lines) p =
      chainApply (fun o r => applyRecord (o.getD (emptyEntry r.process_name)) r) none
        ((rawRecords lines).filter (fun r => r.pid = p)) := by
  rw [buildProcessMap_eq_foldRecords]
  exact lookupKey_foldUpsert (fun r : RawRecord => r.pid)
    (fun o r => applyRecord (o.getD (emptyEntry r.process_name)) r) (rawRecords lines) [] p

theorem buildProcessMap_keys_nodup (lines : List String) :
    (keysOf (buildProcessMap lines)).Nodup := by
  rw [buildProcessMap_eq_foldRecords]
  exact keysOf_foldUpsert_nodup _ _ _ [] (by simp [keysOf])

theorem chainApply_applyRecord_some (e : Entry) (rs : List RawRecord) :
    chainApply (fun o r => applyRecord (o.getD (emptyEntry r.process_name)) r) (some e) rs =
      some (rs.foldl applyRecord e) := by
  induction rs generalizing e with
  | nil => simp [chainApply]
  | cons r rest ih =>
    simp only [chainApply, List.foldl_cons] at ih ⊢
    exact ih (applyRecord e r)

/-- The per-PID entry is the fold of that PID's accepted records over the
fresh entry named after the first of them. -/
theorem lookupKey_buildProcessMap_eq (lines : List String) (p : Nat) :
    lookupKey (buildProcessMap lines) p =
      match (rawRecords lines).filter (fun r => r.pid = p) with
      | [] => none
      | r :: rest => some (rest.foldl applyRecord (applyRecord (emptyEntry r.process_name) r)) := by
  rw [lookupKey_buildProcessMap]
  cases hf : (rawRecords lines).filter (fun r => r.pid = p) with
  | nil => simp [chainApply]
  | cons r rest =>
    simp only [chainApply, List.foldl_cons]
    exact chainApply_applyRecord_some _ rest

theorem foldl_applyRecord_ports (e : Entry) (rs : List RawRecord) :
    (rs.foldl applyRecord e).ports = (rs.map (·.port)).foldl pushNew e.ports := by
  induction rs generalizing e with
  | nil => rfl
  | cons r rest ih => simpa [applyRecord] using ih (applyRecord e r)

theorem foldl_applyRecord_process_name (e : Entry) (rs : List RawRecord) :
    (rs.foldl applyRecord e).process_name = e.process_name := by
  induction rs generalizing e with
  | nil => rfl
  | cons r rest ih => simpa [applyRecord] using ih (applyRecord e r)

theorem foldl_applyRecord_command (e : Entry) (rs : List RawRecord) :
    (rs.foldl applyRecord e).command = e.command := by
  induction rs generalizing e with
  | nil => rfl
  | cons r rest ih => simpa [applyRecord] using ih (applyRecord e r)

theorem foldl_applyRecord_user (e : Entry) (rs : List RawRecord) :
    (rs.foldl applyRecord e).user = e.user := by
  induction rs generalizing e with
  | nil => rfl
  | cons r rest ih => simpa [applyRecord] using ih (applyRecord e r)

theorem foldl_applyRecord_cpu (e : Entry) (rs : List RawRecord) :
    (rs.foldl applyRecord e).cpu = e.cpu := by
  induction rs generalizing e with
  | nil => rfl
  | cons r rest ih => simpa [applyRecord] using ih (applyRecord e r)

theorem foldl_applyRecord_mem (e : Entry) (rs : List RawRecord) :
    (rs.foldl applyRecord e).mem = e.mem := by
  induction rs generalizing e with
  | nil => rfl
  | cons r rest ih => simpa [applyRecord] using ih (applyRecord e r)

/-! ### Port de-duplication -/

/-- Duplicate removal keeping the first occurrence of each value, in order. -/
def dedupFirst : List String → List String
  | [] => []
  | x :: xs => x :: dedupFirst (xs.filter (· ≠ x))
termination_by l => l.length
decreasing_by exact Nat.lt_succ_of_le (List.length_filter_le _ xs)

theorem foldl_pushNew_nodup (l : List String) (acc : List String) (h : acc.Nodup) :
    (l.foldl pushNew acc).Nodup := by
  induction l generalizing acc with
  | nil => exact h
  | cons x xs ih =>
    simp only [List.foldl_cons]
    refine ih _ ?_
    by_cases hx : x ∈ acc
    · simpa [pushNew, hx] using h
    · have h1 : pushNew acc x = acc ++ [x] := by simp [pushNew, hx]
      rw [h1]
      refine (List.nodup_append).mpr ⟨h, List.nodup_singleton x, ?_⟩
      intro a ha hax
      rw [List.mem_singleton] at hax
      subst hax
      exact hx ha

theorem foldl_pushNew_eq_dedupFirst (l : List String) (acc : List String) :
    l.foldl pushNew acc = acc ++ dedupFirst (l.filter (fun p => !acc.contains p)) := by
  induction l generalizing acc with
  | nil => simp [dedupFirst]
  | cons x xs ih =>
    by_cases hx : x ∈ acc
    · have h1 : pushNew acc x = acc := by simp [pushNew, hx]
      have h2 : (x :: xs).filter (fun p => !acc.contains p) =
          xs.filter (fun p => !acc.contains p) := by
        simp [List.filter_cons, hx]
      simp only [List.foldl_cons, h1, h2, ih]
    · have h1 : pushNew acc x = acc ++ [x] := by simp [pushNew, hx]
      have hfilter : xs.filter (fun p => !(acc ++ [x]).contains p) =
          (xs.filter (fun p => !acc.contains p)).filter (fun p => p ≠ x) := by
        rw [List.filter_filter]
        refine List.filter_congr ?_
        intro p _
        by_cases hpx : p = x
        · subst hpx; simp
        · simp [hpx]
      have h2 : (x :: xs).filter (fun p => !acc.contains p) =
          x :: xs.filter (fun p => !acc.contains p) := by
        simp [List.filter_cons, hx]
      simp only [List.foldl_cons, h1, h2]
      rw [ih, hfilter, dedupFirst, List.append_assoc]
      rfl

/-! ### Characterizing the grouping -/

theorem chainApply_group_some (ts : List GTuple) (fs : List (Nat × Entry)) :
    chainApply (fun o pe => o.getD [] ++ [mkTuple pe.1 pe.2]) (some ts) fs =
      some (ts ++ fs.map (fun pe => mkTuple pe.1 pe.2)) := by
  induction fs generalizing ts with
  | nil => simp [chainApply]
  | cons f rest ih =>
    simp only [chainApply, List.foldl_cons, Option.getD_some] at ih ⊢
    rw [ih (ts ++ [mkTuple f.1 f.2])]
    simp

theorem lookupKey_groupFold (entries : List (Nat × Entry)) (k : String × String) :
    lookupKey (groupFold entries) k =
      match entries.filter (fun pe => entryKey pe = k) with
      | [] => none
      | fs => some (fs.map (fun pe => mkTuple pe.1 pe.2)) := by
  have h := lookupKey_foldUpsert entryKey
    (fun o (pe : Nat × Entry) => o.getD [] ++ [mkTuple pe.1 pe.2]) entries [] k
  have hgf : groupFold entries =
      entries.foldl (fun gs pe => upsert gs (entryKey pe)
        (fun o => o.getD [] ++ [mkTuple pe.1 pe.2])) [] := rfl
  rw [hgf, h]
  cases hf : entries.filter (fun pe => entryKey pe = k) with
  | nil => simp [chainApply, lookupKey]
  | cons f rest =>
    have h2 := chainApply_group_some [mkTuple f.1 f.2] rest
    simp only [chainApply, List.foldl_cons, lookupKey, Option.getD_none,
      Option.getD_some, List.nil_append] at h2 ⊢
    rw [h2]
    simp

theorem groupFold_keys_nodup (entries : List (Nat × Entry)) :
    (keysOf (groupFold entries)).Nodup :=
  keysOf_foldUpsert_nodup _ _ _ [] (by simp [keysOf])

def joinPids (gs : List ((String × String) × List GTuple)) : List Nat :=
  (gs.map (fun g => g.2.map (fun t => t.1))).flatten

theorem joinPids_cons (g : (String × String) × List GTuple)
    (rest : List ((String × String) × List GTuple)) :
    joinPids (g :: rest) = g.2.map (fun t => t.1) ++ joinPids rest := rfl

theorem joinPids_addToGroup (gs : List ((String × String) × List GTuple))
    (k : String × String) (t : GTuple) :
    (joinPids (addToGroup gs k t)).Perm (t.1 :: joinPids gs) := by
  induction gs with
  | nil => simp [addToGroup, upsert, joinPids]
  | cons g rest ih =>
    obtain ⟨k0, ts⟩ := g
    by_cases h : k0 = k
    · subst h
      have hstep : addToGroup ((k0, ts) :: rest) k0 t = (k0, ts ++ [t]) :: rest := by
        simp [addToGroup, upsert]
      rw [hstep, joinPids_cons, joinPids_cons]
      simp only [List.map_append, List.map_cons, List.map_nil, List.append_assoc]
      exact List.perm_middle
    · have hstep : addToGroup ((k0, ts) :: rest) k t = (k0, ts) :: addToGroup rest k t := by
        simp [addToGroup, upsert, h]
      rw [hstep, joinPids_cons, joinPids_cons]
      refine (ih.append_left (List.map (fun t => t.1) ts)).trans ?_
      exact List.perm_middle

theorem joinPids_groupFold (entries : List (Nat × Entry)) :
    (joinPids (groupFold entries)).Perm (entries.map (fun pe => pe.1)) := by
  suffices h : ∀ gs, (joinPids (entries.foldl
      (fun gs pe => addToGroup gs (entryKey pe) (mkTuple pe.1 pe.2)) gs)).Perm
      (joinPids gs ++ entries.map (fun pe => pe.1)) by
    simpa [groupFold, joinPids] using h []
  induction entries with
  | nil => intro gs; simp
  | cons pe rest ih =>
    intro gs
    simp only [List.foldl_cons, List.map_cons]
    refine (ih _).trans ?_
    refine ((joinPids_addToGroup gs _ _).append_right _).trans ?_
    exact List.perm_middle.symm

theorem flatten_map_perm {α β : Type} {l : List α} {f g : α → List β}
    (h : ∀ x ∈ l, (f x).Perm (g x)) :
    ((l.map f).flatten).Perm ((l.map g).flatten) := by
  induction l with
  | nil => simp
  | cons x xs ih =>
    simp only [List.map_cons, List.flatten_cons]
    exact (h x (by simp)).append (ih (fun y hy => h y (by simp [hy])))

/-! ### The enriched aggregate -/

theorem enrichMap_keys (ps : Nat → Option String) (m : List (Nat × Entry)) :
    keysOf (enrichMap ps m) = keysOf m := by
  induction m with
  | nil => rfl
  | cons pe rest ih =>
    show pe.1 :: keysOf (enrichMap ps rest) = pe.1 :: keysOf rest
    rw [ih]

theorem aggregateMap_keys_nodup (lines : List String) (ps : Nat → Option String) :
    (keysOf (aggregateMap lines ps)).Nodup := by
  rw [aggregateMap, enrichMap_keys]
  exact buildProcessMap_keys_nodup _

theorem lookupKey_enrichMap (ps : Nat → Option String) (m : List (Nat × Entry)) (p : Nat) :
    lookupKey (enrichMap ps m) p = (lookupKey m p).map (enrichEntry (ps p)) := by
  induction m with
  | nil => simp [enrichMap, lookupKey]
  | cons pe rest ih =>
    obtain ⟨q, e⟩ := pe
    by_cases h : q = p
    · subst h
      simp [enrichMap, lookupKey]
    · have ih2 : lookupKey (List.map (fun pe => (pe.1, enrichEntry (ps pe.1) pe.2)) rest) p =
          Option.map (enrichEntry (ps p)) (lookupKey rest p) := by
        simpa [enrichMap] using ih
      simp [enrichMap, lookupKey, h, ih2]

/-! ### Report membership: soundness and completeness -/

/-- Every `PidInfo` shown in the report is the image of exactly the
aggregate entry at its PID, and its row carries that entry's group key. -/
theorem reportCore_sound {lines : List String} {ps : Nat → Option String}
    {s1 : List (Nat × Entry) → List (Nat × Entry)}
    {s2 : List ((String × String) × List GTuple) → List ((String × String) × List GTuple)}
    (hs1 : (s1 (aggregateMap lines ps)).Perm (aggregateMap lines ps))
    (hs2 : (s2 (groupFold (s1 (aggregateMap lines ps)))).Perm
        (groupFold (s1 (aggregateMap lines ps))))
    {r : PortInfo} (hr : r ∈ reportCore lines ps s1 s2) {pi : PidInfo} (hpi : pi ∈ r.pids) :
    ∃ p e, lookupKey (aggregateMap lines ps) p = some e ∧
      pi = tupleToPidInfo (mkTuple p e) ∧
      r.process_name = e.process_name ∧ r.command = e.command := by
  have hr2 : r ∈ (s2 (groupFold (s1 (aggregateMap lines ps)))).map mkRow :=
    (sortBy_perm rowLe _).mem_iff.mp hr
  obtain ⟨g, hg, rfl⟩ := List.mem_map.mp hr2
  have hg2 : g ∈ groupFold (s1 (aggregateMap lines ps)) := hs2.mem_iff.mp hg
  obtain ⟨k, ts⟩ := g
  have hts := mem_lookupKey (groupFold_keys_nodup _) hg2
  rw [lookupKey_groupFold] at hts
  rcases hf : (s1 (aggregateMap lines ps)).filter (fun pe => entryKey pe = k) with _ | ⟨f, fs⟩
  · rw [hf] at hts; simp at hts
  · rw [hf] at hts
    simp only [Option.some.injEq] at hts
    have hpi2 : pi ∈ (sortBy pidLe ts).map tupleToPidInfo := hpi
    obtain ⟨t, ht, hteq⟩ := List.mem_map.mp hpi2
    subst hteq
    have ht2 : t ∈ ts := mem_sortBy.mp ht
    rw [← hts] at ht2
    obtain ⟨pe, hpe, rfl⟩ := List.mem_map.mp ht2
    have hpef : pe ∈ (s1 (aggregateMap lines ps)).filter (fun pe => entryKey pe = k) := by
      rw [hf]; exact hpe
    have hpe2 : pe ∈ s1 (aggregateMap lines ps) := List.mem_of_mem_filter hpef
    have hkey : entryKey pe = k := by simpa using List.of_mem_filter hpef
    have hpem : pe ∈ aggregateMap lines ps := hs1.mem_iff.mp hpe2
    refine ⟨pe.1, pe.2, mem_lookupKey (aggregateMap_keys_nodup lines ps) hpem, rfl, ?_, ?_⟩
    · simp [mkRow, ← hkey, entryKey]
    · simp [mkRow, ← hkey, entryKey]

/-- Every aggregate entry appears in the report: its row carries its group
key and contains its `PidInfo`. -/
theorem reportCore_complete {lines : List String} {ps : Nat → Option String}
    {s1 : List (Nat × Entry) → List (Nat × Entry)}
    {s2 : List ((String × String) × List GTuple) → List ((String × String) × List GTuple)}
    (hs1 : (s1 (aggregateMap lines ps)).Perm (aggregateMap lines ps))
    (hs2 : (s2 (groupFold (s1 (aggregateMap lines ps)))).Perm
        (groupFold (s1 (aggregateMap lines ps))))
    {p : Nat} {e : Entry} (hmem : (p, e) ∈ aggregateMap lines ps) :
    ∃ r ∈ reportCore lines ps s1 s2,
      r.process_name = e.process_name ∧ r.command = e.command ∧
      tupleToPidInfo (mkTuple p e) ∈ r.pids := by
  have hpe2 : (p, e) ∈ s1 (aggregateMap lines ps) := hs1.mem_iff.mpr hmem
  have hfmem : (p, e) ∈ (s1 (aggregateMap lines ps)).filter
      (fun pe => entryKey pe = entryKey (p, e)) := by
    exact List.mem_filter.mpr ⟨hpe2, by simp⟩
  have hne : (s1 (aggregateMap lines ps)).filter
      (fun pe => entryKey pe = entryKey (p, e)) ≠ [] := by
    intro h
    rw [h] at hfmem
    simp at hfmem
  have hlk := lookupKey_groupFold (s1 (aggregateMap lines ps)) (entryKey (p, e))
  rcases hf : (s1 (aggregateMap lines ps)).filter (fun pe => entryKey pe = entryKey (p, e))
    with _ | ⟨f, fs⟩
  · exact absurd hf hne
  · rw [hf] at hlk
    have hgmem : (entryKey (p, e), (f :: fs).map (fun pe => mkTuple pe.1 pe.2)) ∈
        groupFold (s1 (aggregateMap lines ps)) := lookupKey_mem hlk
    have hgmem2 : (entryKey (p, e), (f :: fs).map (fun pe => mkTuple pe.1 pe.2)) ∈
        s2 (groupFold (s1 (aggregateMap lines ps))) := hs2.mem_iff.mpr hgmem
    refine ⟨mkRow (entryKey (p, e), (f :: fs).map (fun pe => mkTuple pe.1 pe.2)), ?_, ?_, ?_, ?_⟩
    · exact (sortBy_perm rowLe _).mem_iff.mpr (List.mem_map_of_mem mkRow hgmem2)
    · simp [mkRow, entryKey]
    · simp [mkRow, entryKey]
    · simp only [mkRow]
      refine List.mem_map_of_mem tupleToPidInfo ?_
      refine mem_sortBy.mpr ?_
      rw [← hf]
      exact List.mem_map.mpr ⟨(p, e), hfmem, rfl⟩

def reportPids (report : List PortInfo) : List Nat :=
  (report.map (fun r => r.pids.map (fun pi => pi.pid))).flatten

theorem reportPids_perm {lines : List String} {ps : Nat → Option String}
    {s1 : List (Nat × Entry) → List (Nat × Entry)}
    {s2 : List ((String × String) × List GTuple) → List ((String × String) × List GTuple)}
    (hs1 : (s1 (aggregateMap lines ps)).Perm (aggregateMap lines ps))
    (hs2 : (s2 (groupFold (s1 (aggregateMap lines ps)))).Perm
        (groupFold (s1 (aggregateMap lines ps)))) :
    (reportPids (reportCore lines ps s1 s2)).Perm (keysOf (aggregateMap lines ps)) := by
  have h1 : (reportPids (reportCore lines ps s1 s2)).Perm
      (reportPids ((s2 (groupFold (s1 (aggregateMap lines ps)))).map mkRow)) := by
    unfold reportPids
    exact ((sortBy_perm rowLe _).map _).flatten
  have h2 : reportPids ((s2 (groupFold (s1 (aggregateMap lines ps)))).map mkRow) =
      ((s2 (groupFold (s1 (aggregateMap lines ps)))).map
        (fun g => (sortBy pidLe g.2).map (fun t => t.1))).flatten := by
    unfold reportPids
    rw [List.map_map]
    refine congrArg List.flatten (List.map_congr_left ?_)
    intro g _
    show (List.map (fun pi => pi.pid) ((sortBy pidLe g.2).map tupleToPidInfo)) = _
    rw [List.map_map]
    rfl
  have h3 : (((s2 (groupFold (s1 (aggregateMap lines ps)))).map
      (fun g => (sortBy pidLe g.2).map (fun t => t.1))).flatten).Perm
      (joinPids (s2 (groupFold (s1 (aggregateMap lines ps))))) := by
    unfold joinPids
    refine flatten_map_perm ?_
    intro g _
    exact (sortBy_perm pidLe g.2).map _
  have h4 : (joinPids (s2 (groupFold (s1 (aggregateMap lines ps))))).Perm
      (joinPids (groupFold (s1 (aggregateMap lines ps)))) := by
    unfold joinPids
    exact (hs2.map _).flatten
  have h5 := joinPids_groupFold (s1 (aggregateMap lines ps))
  have h6 : ((s1 (aggregateMap lines ps)).map (fun pe => pe.1)).Perm
      (keysOf (aggregateMap lines ps)) := by
    unfold keysOf
    exact hs1.map _
  exact h1.trans (h2 ▸ (h3.trans (h4.trans (h5.trans h6))))

/-! ### The token-splitting loop of the enricher -/

theorem splitWhitespace_ne_empty {s : String} {w : String} (h : w ∈ splitWhitespace s) :
    w ≠ "" := by
  have := List.of_mem_filter h
  simpa using this

theorem string_ne_empty_of_data {a : String} (h : a.data ≠ []) : a ≠ "" := by
  intro he
  subst he
  exact h rfl

theorem append_space_ne_empty (a b : String) : a ++ " " ++ b ≠ "" := by
  refine string_ne_empty_of_data ?_
  rw [String.data_append, String.data_append]
  intro h
  simpa using congrArg List.length h

theorem joinSep_space_ne_empty {x : String} (hx : x ≠ "") (xs : List String) :
    joinSep " " (x :: xs) ≠ "" := by
  cases xs with
  | nil => exact hx
  | cons y ys => exact append_space_ne_empty x (joinSep " " (y :: ys))

theorem foldl_splitMax4Step_after3 (ws : List String) (parts : List String) (current : String) :
    ws.foldl splitMax4Step (parts, current, 3) =
      (parts, ws.foldl (fun c w => if c = "" then w else c ++ " " ++ w) current, 3) := by
  induction ws generalizing current with
  | nil => rfl
  | cons w rest ih =>
    simp only [List.foldl_cons, splitMax4Step]
    exact ih _

theorem foldl_joinAcc (c : String) (hc : c ≠ "") (ws : List String) :
    ws.foldl (fun c w => if c = "" then w else c ++ " " ++ w) c = joinSep " " (c :: ws) := by
  induction ws generalizing c with
  | nil => rfl
  | cons w rest ih =>
    simp only [List.foldl_cons, if_neg hc]
    rw [ih (c ++ " " ++ w) (append_space_ne_empty c w)]
    cases rest with
    | nil => rfl
    | cons r rs =>
      show (c ++ " " ++ w) ++ " " ++ joinSep " " (r :: rs) = _
      simp [joinSep, String.append_assoc]

/-- The "split into at most 4 parts" loop on at least four non-empty
tokens: the first three tokens, then the rest rejoined with single
spaces. -/
theorem splitMax4_eq (ws : List String) (h4 : 4 ≤ ws.length) (hne : ∀ w ∈ ws, w ≠ "") :
    splitMax4 ws = ws.take 3 ++ [joinSep " " (ws.drop 3)] := by
  rcases ws with _ | ⟨a, _ | ⟨b, _ | ⟨c, _ | ⟨d, rest⟩⟩⟩⟩
  · simp at h4
  · simp at h4
  · simp at h4
  · simp at h4
  · have hd : d ≠ "" := hne d (by simp)
    have hstart : (a :: b :: c :: d :: rest).foldl splitMax4Step ([], "", 0) =
        (d :: rest).foldl splitMax4Step ([a, b, c], "", 3) := by
      simp [splitMax4Step]
    have hfirst : (d :: rest).foldl splitMax4Step ([a, b, c], "", 3) =
        rest.foldl splitMax4Step ([a, b, c], d, 3) := by
      simp [splitMax4Step]
    have hjoin : rest.foldl splitMax4Step ([a, b, c], d, 3) =
        ([a, b, c], joinSep " " (d :: rest), 3) := by
      rw [foldl_splitMax4Step_after3, foldl_joinAcc d hd]
    unfold splitMax4
    rw [hstart, hfirst, hjoin]
    simp only [if_neg (joinSep_space_ne_empty hd rest)]
    rfl

/-- Lines 112-117: with at least four tokens after trimming, the first
three become user, cpu%, mem% and the rest is rejoined into the command. -/
theorem enrichEntry_fields (out : String) (e : Entry)
    (h4 : 4 ≤ (splitWhitespace (trimWs out)).length) :
    enrichEntry (some out) e =
      { e with user := (splitWhitespace (trimWs out)).getD 0 "",
               cpu := (splitWhitespace (trimWs out)).getD 1 "",
               mem := (splitWhitespace (trimWs out)).getD 2 "",
               command := joinSep " " ((splitWhitespace (trimWs out)).drop 3) } := by
  have hs := splitMax4_eq (splitWhitespace (trimWs out)) h4
    (fun w hw => splitWhitespace_ne_empty hw)
  rcases hws : splitWhitespace (trimWs out) with _ | ⟨a, _ | ⟨b, _ | ⟨c, _ | ⟨d, rest⟩⟩⟩⟩ <;>
    rw [hws] at hs h4
  · simp at h4
  · simp at h4
  · simp at h4
  · simp at h4
  · simp only [enrichEntry, hws, hs]
    rfl

theorem splitMax4_short (ws : List String) (h : ws.length ≤ 3) : splitMax4 ws = ws := by
  rcases ws with _ | ⟨a, _ | ⟨b, _ | ⟨c, _ | ⟨d, rest⟩⟩⟩⟩
  · rfl
  · rfl
  · rfl
  · rfl
  · simp at h

theorem enrichEntry_fail_none (e : Entry) : enrichEntry none e = e := rfl

theorem enrichEntry_fail_short (out : String) (e : Entry)
    (h : (splitWhitespace (trimWs out)).length < 4) :
    enrichEntry (some out) e = e := by
  have hs : splitMax4 (splitWhitespace (trimWs out)) = splitWhitespace (trimWs out) :=
    splitMax4_short _ (by omega)
  simp [enrichEntry, hs, Nat.not_le.mpr h]

/-! ### Defaults of freshly parsed entries -/

theorem buildProcessMap_entry_defaults {lines : List String} {p : Nat} {e : Entry}
    (h : lookupKey (buildProcessMap lines) p = some e) :
    e.user = "" ∧ e.cpu = "" ∧ e.mem = "" ∧ e.command = "" := by
  rw [lookupKey_buildProcessMap_eq] at h
  rcases hf : (rawRecords lines).filter (fun r => r.pid = p) with _ | ⟨r, rest⟩ <;>
    rw [hf] at h
  · simp at h
  · simp only [Option.some.injEq] at h
    subst h
    rw [foldl_applyRecord_user, foldl_applyRecord_cpu, foldl_applyRecord_mem,
      foldl_applyRecord_command]
    exact ⟨rfl, rfl, rfl, rfl⟩

/-! ### The claims -/

/-- C4: the socket-listing parser skips exactly one header line (the first
stdout line never influences the report); a line with fewer than 9
whitespace-separated fields yields no record; a record whose address
substring after the last `:` is not entirely numeric yields no record; a
line without a record leaves the map unchanged; and no stdout content makes
`list_ports` fail. -/
theorem C4_malformed_line_tolerance :
    (∀ (h1 h2 : String) (rest : List String) (ps : Nat → Option String) s1 s2,
        list_ports (.completed true (h1 :: rest)) ps s1 s2 =
          list_ports (.completed true (h2 :: rest)) ps s1 s2)
    ∧ (∀ line : String, (splitWhitespace line).length < 9 → parseRecord line = none)
    ∧ (∀ (line portStr : String),
        (splitBy (· = ':') ((splitWhitespace line).getD 8 "")).getLast? = some portStr →
        portStr.data.all (·.isDigit) = false → parseRecord line = none)
    ∧ (∀ (m : List (Nat × Entry)) (line : String), parseRecord line = none →
        foldLine m line = m)
    ∧ (∀ (lines : List String) (ps : Nat → Option String) s1 s2,
        ∃ report, list_ports (.completed true lines) ps s1 s2 = .ok report) := by
  refine ⟨fun h1 h2 rest ps s1 s2 => rfl, ?_, ?_, ?_,
    fun lines ps s1 s2 => ⟨reportCore lines ps s1 s2, rfl⟩⟩
  · intro line h
    simp [parseRecord, h]
  · intro line portStr hlast hdig
    by_cases h9 : (splitWhitespace line).length < 9
    · simp [parseRecord, h9]
    · have hlast2 : (splitBy (· = ':') ((splitWhitespace line)[8]?.getD "")).getLast? =
          some portStr := by simpa using hlast
      have hdig2 : ¬ ∀ x ∈ portStr.data, x.isDigit = true := by simpa using hdig
      simp [parseRecord, h9, hlast2, hdig2]
  · intro m line h
    simp [foldLine, h]

theorem C4_malformed_line_tolerance_witness :
    ((splitWhitespace "ab cd").length < 9 ∧ parseRecord "ab cd" = none)
    ∧ ((splitBy (· = ':')
          ((splitWhitespace "nginx 1 root 6u IPv4 2 3 TCP *:https").getD 8 "")).getLast? =
            some "https" ∧
        ("https".data.all (·.isDigit)) = false ∧
        parseRecord "nginx 1 root 6u IPv4 2 3 TCP *:https" = none)
    ∧ foldLine [] "ab cd" = [] := by
  refine ⟨⟨by decide, C4_malformed_line_tolerance.2.1 _ (by decide)⟩,
    ⟨by decide, by decide, C4_malformed_line_tolerance.2.2.1 _ "https" (by decide) (by decide)⟩,
    C4_malformed_line_tolerance.2.2.2.1 [] _
      (C4_malformed_line_tolerance.2.1 _ (by decide))⟩

/-- C6: for every process-status output line with at least four
whitespace-separated tokens after trimming, enrichment assigns token 1 to
user, token 2 to cpu%, token 3 to mem%, and rejoins all remaining tokens
with single spaces into the command, so embedded arguments are not
truncated. -/
theorem C6_enrichment_token_assignment (out : String) (e : Entry)
    (h4 : 4 ≤ (splitWhitespace (trimWs out)).length) :
    enrichEntry (some out) e =
      { e with user := (splitWhitespace (trimWs out)).getD 0 "",
               cpu := (splitWhitespace (trimWs out)).getD 1 "",
               mem := (splitWhitespace (trimWs out)).getD 2 "",
               command := joinSep " " ((splitWhitespace (trimWs out)).drop 3) } :=
  enrichEntry_fields out e h4

theorem C6_enrichment_token_assignment_witness :
    4 ≤ (splitWhitespace (trimWs "root 0.0 0.1 nginx: master process")).length ∧
    enrichEntry (some "root 0.0 0.1 nginx: master process") (emptyEntry "nginx") =
      { emptyEntry "nginx" with
          user := (splitWhitespace (trimWs "root 0.0 0.1 nginx: master process")).getD 0 "",
          cpu := (splitWhitespace (trimWs "root 0.0 0.1 nginx: master process")).getD 1 "",
          mem := (splitWhitespace (trimWs "root 0.0 0.1 nginx: master process")).getD 2 "",
          command :=
            joinSep " " ((splitWhitespace (trimWs "root 0.0 0.1 nginx: master process")).drop 3) } :=
  ⟨by decide, C6_enrichment_token_assignment _ _ (by decide)⟩

/-- C7: `list_ports` fails exactly when the `lsof` facility is not
invocable (io error, `ToolUnavailable`-class) or exits with non-zero status
(`ToolExecutionFailed`-class); a successful run always produces a report. -/
theorem C7_list_ports_failure_conditions (ps : Nat → Option String)
    (s1 : List (Nat × Entry) → List (Nat × Entry))
    (s2 : List ((String × String) × List GTuple) → List ((String × String) × List GTuple)) :
    (∀ e, list_ports (.ioError e) ps s1 s2 = .error ("Failed to execute lsof: " ++ e))
    ∧ (∀ lines, list_ports (.completed false lines) ps s1 s2 = .error "lsof command failed")
    ∧ (∀ lines, list_ports (.completed true lines) ps s1 s2 =
        .ok (reportCore lines ps s1 s2)) :=
  ⟨fun _ => rfl, fun _ => rfl, fun _ => rfl⟩

/-- C8: `kill_process` succeeds with a message containing the PID exactly
when the kill facility exits successfully; on non-zero exit it fails with a
message containing the PID and the facility's stderr text verbatim; when
the facility is not invocable it fails with the io error. -/
theorem C8_kill_process_outcomes (pid : Nat) :
    (∀ stderrText, kill_process pid (.completed true stderrText) =
        .ok ("Process " ++ toString pid ++ " killed successfully"))
    ∧ (∀ stderrText, kill_process pid (.completed false stderrText) =
        .error ("Failed to kill process " ++ toString pid ++ ": " ++ stderrText))
    ∧ (∀ e, kill_process pid (.ioError e) = .error ("Failed to kill process: " ++ e)) :=
  ⟨fun _ => rfl, fun _ => rfl, fun _ => rfl⟩

/-- C9: every process-map entry's port list is duplicate-free and equals the
first-appearance de-duplication, in stdout order, of the ports of that
PID's accepted records. -/
theorem C9_port_dedup (lines : List String) (p : Nat) (e : Entry)
    (h : (p, e) ∈ buildProcessMap lines) :
    e.ports =
      dedupFirst (((rawRecords lines).filter (fun r => r.pid = p)).map (fun r => r.port))
    ∧ e.ports.Nodup := by
  have hl := mem_lookupKey (buildProcessMap_keys_nodup lines) h
  rw [lookupKey_buildProcessMap_eq] at hl
  rcases hf : (rawRecords lines).filter (fun r => r.pid = p) with _ | ⟨r, rest⟩ <;>
    rw [hf] at hl
  · simp at hl
  · simp only [Option.some.injEq] at hl
    subst hl
    have h0 : (applyRecord (emptyEntry r.process_name) r).ports = [r.port] := by
      simp [applyRecord, emptyEntry, pushNew]
    constructor
    · rw [foldl_applyRecord_ports, h0]
      have h1 : ((r :: rest).map (fun r => r.port)).foldl pushNew [] =
          (rest.map (fun r => r.port)).foldl pushNew [r.port] := by
        simp [pushNew]
      rw [← h1, foldl_pushNew_eq_dedupFirst, hf]
      simp
    · rw [foldl_applyRecord_ports, h0]
      exact foldl_pushNew_nodup _ _ (by simp)

def dupPortLines : List String :=
  ["COMMAND PID USER FD TYPE DEVICE SIZE NODE NAME",
   "svc 50 root 6u IPv4 1 2 TCP *:443",
   "svc 50 root 7u IPv4 3 4 TCP 127.0.0.1:443"]

def dupEntry : Entry := ⟨"svc", ["443"], ["TCP"], "", "", "", ""⟩

theorem C9_port_dedup_witness :
    ((50, dupEntry) ∈ buildProcessMap (dupPortLines.drop 1)) ∧
    (dupEntry.ports =
        dedupFirst (((rawRecords (dupPortLines.drop 1)).filter
          (fun r => r.pid = 50)).map (fun r => r.port))
      ∧ dupEntry.ports.Nodup) :=
  ⟨by decide, C9_port_dedup (dupPortLines.drop 1) 50 dupEntry (by decide)⟩

def badPidLines : List String :=
  ["COMMAND PID USER FD TYPE DEVICE SIZE NODE NAME",
   "foo abc root 6u IPv4 1 2 TCP *:80",
   "bar -5 root 7u IPv4 3 4 TCP *:90"]

/-- C10 (implicit): a socket-listing line whose PID field does not parse as
an unsigned 32-bit integer is not discarded — its record falls back to PID
0 — so all such lines fold into a single aggregate keyed 0, which can
appear in the final report. -/
theorem C10_pid_parse_fallback :
    (∀ (line : String) (r : RawRecord),
        parseU32 ((splitWhitespace line).getD 1 "") = none →
        parseRecord line = some r → r.pid = 0)
    ∧ buildProcessMap (badPidLines.drop 1) =
        [(0, { process_name := "foo", ports := ["80", "90"], protocols := ["TCP"],
               command := "", user := "", cpu := "", mem := "" })]
    ∧ (∃ report, list_ports (.completed true badPidLines) (fun _ => none) id id = .ok report ∧
        ∃ r ∈ report, ∃ pi ∈ r.pids, pi.pid = 0) := by
  refine ⟨?_, by decide, ?_⟩
  · intro line r hU hp
    have hU2 : parseU32 ((splitWhitespace line)[1]?.getD "") = none := by simpa using hU
    by_cases h9 : (splitWhitespace line).length < 9
    · simp [parseRecord, h9] at hp
    · rcases hl : (splitBy (· = ':') ((splitWhitespace line)[8]?.getD "")).getLast?
        with _ | portStr
      · simp [parseRecord, h9, hl] at hp
      · by_cases hd : ∀ x ∈ portStr.data, x.isDigit = true
        · simp [parseRecord, h9, hl, hd] at hp
          obtain ⟨-, hp⟩ := hp
          subst hp
          simp [hU2]
        · simp [parseRecord, h9, hl, hd] at hp
  · refine ⟨reportCore badPidLines (fun _ => none) id id, rfl, ?_⟩
    decide

theorem C10_pid_parse_fallback_witness :
    parseU32 ((splitWhitespace "foo abc root 6u IPv4 1 2 TCP *:80").getD 1 "") = none ∧
    (RawRecord.mk "foo" 0 "TCP" "80").pid = 0 :=
  ⟨by decide, C10_pid_parse_fallback.1 "foo abc root 6u IPv4 1 2 TCP *:80" _
    (by decide) (by decide)⟩

/-- C5: if enrichment for one PID fails — the `ps` call errors, returns
empty output, or yields fewer than four tokens — the report still contains
that PID's entry with its correct (sorted, joined) port list and empty
strings for user, cpu%, mem% and command; the failure never aborts the
report. -/
theorem C5_partial_failure_tolerance (lines : List String) (ps : Nat → Option String)
    (s1 : List (Nat × Entry) → List (Nat × Entry))
    (s2 : List ((String × String) × List GTuple) → List ((String × String) × List GTuple))
    (p : Nat) (e : Entry)
    (hs1 : (s1 (aggregateMap lines ps)).Perm (aggregateMap lines ps))
    (hs2 : (s2 (groupFold (s1 (aggregateMap lines ps)))).Perm
        (groupFold (s1 (aggregateMap lines ps))))
    (hagg : lookupKey (buildProcessMap (lines.drop 1)) p = some e)
    (hfail : ps p = none ∨ ps p = some "" ∨
      ∃ out, ps p = some out ∧ (splitWhitespace (trimWs out)).length < 4) :
    ∃ report, list_ports (.completed true lines) ps s1 s2 = .ok report ∧
      ∃ r ∈ report, r.process_name = e.process_name ∧ r.command = "" ∧
        ({ pid := p, ports := joinSep ", " (sortBy portLe e.ports),
           user := "", cpu := "", mem := "" } : PidInfo) ∈ r.pids := by
  obtain ⟨hu, hc, hm, hcmd⟩ := buildProcessMap_entry_defaults hagg
  have hid : enrichEntry (ps p) e = e := by
    rcases hfail with h | h | ⟨out, hout, hshort⟩
    · rw [h]
      rfl
    · rw [h]
      exact enrichEntry_fail_short "" e (by decide)
    · rw [hout]
      exact enrichEntry_fail_short out e hshort
  have hlk : lookupKey (aggregateMap lines ps) p = some e := by
    rw [aggregateMap, lookupKey_enrichMap, hagg]
    simp [hid]
  have hmem : (p, e) ∈ aggregateMap lines ps :=
    lookupKey_mem hlk
  obtain ⟨r, hr, hname, hcmd2, hpi⟩ := reportCore_complete hs1 hs2 hmem
  refine ⟨reportCore lines ps s1 s2, rfl, r, hr, hname, by rw [hcmd2, hcmd], ?_⟩
  have : tupleToPidInfo (mkTuple p e) =
      { pid := p, ports := joinSep ", " (sortBy portLe e.ports),
        user := "", cpu := "", mem := "" } := by
    simp [tupleToPidInfo, mkTuple, hu, hc, hm]
  rw [← this]
  exact hpi

def failPsLines : List String :=
  ["COMMAND PID USER FD TYPE DEVICE SIZE NODE NAME",
   "svc 50 root 6u IPv4 1 2 TCP *:443",
   "svc 50 root 7u IPv4 3 4 TCP *:80"]

def dupEntry2 : Entry := ⟨"svc", ["443", "80"], ["TCP"], "", "", "", ""⟩

theorem C5_partial_failure_tolerance_witness :
    (lookupKey (buildProcessMap (failPsLines.drop 1)) 50 = some dupEntry2) ∧
    ∃ report, list_ports (.completed true failPsLines) (fun _ => none) id id = .ok report ∧
      ∃ r ∈ report, r.process_name = dupEntry2.process_name ∧ r.command = "" ∧
        ({ pid := 50, ports := joinSep ", " (sortBy portLe dupEntry2.ports),
           user := "", cpu := "", mem := "" } : PidInfo) ∈ r.pids :=
  ⟨by decide, C5_partial_failure_tolerance failPsLines (fun _ => none) id id 50 dupEntry2
    (List.Perm.refl _) (List.Perm.refl _) (by decide) (Or.inl rfl)⟩

/-- C1: in every report, each shown `PidInfo`'s row carries exactly the
(process name, command) key of that PID's aggregate entry (so PIDs sharing
the key share a row and PIDs differing in it cannot share one), no two rows
share a key, and the PIDs of the report are a permutation of the aggregate
map's keys (each appears in exactly one row exactly once). -/
theorem C1_grouping_invariant (lines : List String) (ps : Nat → Option String)
    (s1 : List (Nat × Entry) → List (Nat × Entry))
    (s2 : List ((String × String) × List GTuple) → List ((String × String) × List GTuple))
    (report : List PortInfo)
    (hs1 : (s1 (aggregateMap lines ps)).Perm (aggregateMap lines ps))
    (hs2 : (s2 (groupFold (s1 (aggregateMap lines ps)))).Perm
        (groupFold (s1 (aggregateMap lines ps))))
    (hok : list_ports (.completed true lines) ps s1 s2 = .ok report) :
    (∀ r ∈ report, ∀ pi ∈ r.pids, ∃ e, lookupKey (aggregateMap lines ps) pi.pid = some e ∧
        r.process_name = e.process_name ∧ r.command = e.command)
    ∧ report.Pairwise (fun a b => (a.process_name, a.command) ≠ (b.process_name, b.command))
    ∧ (reportPids report).Perm (keysOf (aggregateMap lines ps)) := by
  have hrep : reportCore lines ps s1 s2 = report := by
    have h := hok
    simp only [list_ports, if_true, Except.ok.injEq] at h
    exact h
  subst hrep
  refine ⟨?_, ?_, reportPids_perm hs1 hs2⟩
  · intro r hr pi hpi
    obtain ⟨p, e, hlk, hpieq, hname, hcmd⟩ := reportCore_sound hs1 hs2 hr hpi
    subst hpieq
    exact ⟨e, hlk, hname, hcmd⟩
  · have h1 : ((reportCore lines ps s1 s2).map
        (fun r => (r.process_name, r.command))).Perm
        (((s2 (groupFold (s1 (aggregateMap lines ps)))).map mkRow).map
          (fun r => (r.process_name, r.command))) :=
      (sortBy_perm rowLe _).map _
    have h2 : ((s2 (groupFold (s1 (aggregateMap lines ps)))).map mkRow).map
        (fun r => (r.process_name, r.command)) =
        keysOf (s2 (groupFold (s1 (aggregateMap lines ps)))) := by
      rw [List.map_map]
      rfl
    have h3 : (keysOf (s2 (groupFold (s1 (aggregateMap lines ps))))).Perm
        (keysOf (groupFold (s1 (aggregateMap lines ps)))) := keysOf_perm hs2
    have hnd : ((reportCore lines ps s1 s2).map
        (fun r => (r.process_name, r.command))).Nodup := by
      rw [(h1.trans (h2 ▸ h3)).nodup_iff]
      exact groupFold_keys_nodup _
    exact List.pairwise_map.mp hnd

/-- C2: report rows are non-decreasing under case-insensitive name
comparison; `PidInfo` children in a row are strictly increasing by PID; and
every shown port string list is the numerically non-decreasing sort
(unparseable ports keyed 0) of the full aggregate port list — a permutation
of it, so no port is dropped. -/
theorem C2_sort_invariants (lines : List String) (ps : Nat → Option String)
    (s1 : List (Nat × Entry) → List (Nat × Entry))
    (s2 : List ((String × String) × List GTuple) → List ((String × String) × List GTuple))
    (report : List PortInfo)
    (hs1 : (s1 (aggregateMap lines ps)).Perm (aggregateMap lines ps))
    (hs2 : (s2 (groupFold (s1 (aggregateMap lines ps)))).Perm
        (groupFold (s1 (aggregateMap lines ps))))
    (hok : list_ports (.completed true lines) ps s1 s2 = .ok report) :
    report.Pairwise (fun a b => rowLe a b = true)
    ∧ (∀ r ∈ report, r.pids.Pairwise (fun a b => a.pid < b.pid))
    ∧ (∀ r ∈ report, ∀ pi ∈ r.pids, ∃ e,
        lookupKey (aggregateMap lines ps) pi.pid = some e ∧
        pi.ports = joinSep ", " (sortBy portLe e.ports) ∧
        (sortBy portLe e.ports).Pairwise (fun a b => portKey a ≤ portKey b) ∧
        (sortBy portLe e.ports).Perm e.ports) := by
  have hrep : reportCore lines ps s1 s2 = report := by
    have h := hok
    simp only [list_ports, if_true, Except.ok.injEq] at h
    exact h
  subst hrep
  refine ⟨sortBy_pairwise rowLe_trans rowLe_total _, ?_, ?_⟩
  · intro r hr
    have hr2 : r ∈ (s2 (groupFold (s1 (aggregateMap lines ps)))).map mkRow :=
      (sortBy_perm rowLe _).mem_iff.mp hr
    obtain ⟨g, hg, rfl⟩ := List.mem_map.mp hr2
    obtain ⟨k, ts⟩ := g
    have hg2 : (k, ts) ∈ groupFold (s1 (aggregateMap lines ps)) := hs2.mem_iff.mp hg
    have hts := mem_lookupKey (groupFold_keys_nodup _) hg2
    rw [lookupKey_groupFold] at hts
    rcases hf : (s1 (aggregateMap lines ps)).filter (fun pe => entryKey pe = k)
      with _ | ⟨f, fs0⟩ <;> rw [hf] at hts
    · simp at hts
    · simp only [Option.some.injEq] at hts
      have hsub : (f :: fs0).Sublist (s1 (aggregateMap lines ps)) :=
        hf ▸ List.filter_sublist _
      have hkeys : (keysOf (s1 (aggregateMap lines ps))).Nodup :=
        (keysOf_perm hs1).nodup_iff.mpr (aggregateMap_keys_nodup lines ps)
      have hnd : ((f :: fs0).map (fun pe => pe.1)).Nodup :=
        List.Nodup.sublist (hsub.map _) hkeys
      have hndts : (ts.map (fun t => t.1)).Nodup := by
        rw [← hts, List.map_map]
        exact hnd
      have hsort := sortBy_pairwise pidLe_trans pidLe_total ts
      have hndsort : ((sortBy pidLe ts).map (fun t => t.1)).Nodup :=
        ((sortBy_perm pidLe ts).map _).nodup_iff.mpr hndts
      have hne : (sortBy pidLe ts).Pairwise (fun a b => a.1 ≠ b.1) :=
        List.pairwise_map.mp hndsort
      have hlt : (sortBy pidLe ts).Pairwise (fun a b : GTuple => a.1 < b.1) := by
        refine (hsort.and hne).imp ?_
        intro a b hab
        obtain ⟨hle, hneq⟩ := hab
        have hle2 : a.1 ≤ b.1 := by simpa [pidLe] using hle
        omega
      show ((sortBy pidLe ts).map tupleToPidInfo).Pairwise (fun a b => a.pid < b.pid)
      rw [List.pairwise_map]
      exact hlt
  · intro r hr pi hpi
    obtain ⟨p, e, hlk, hpieq, -, -⟩ := reportCore_sound hs1 hs2 hr hpi
    subst hpieq
    refine ⟨e, hlk, rfl, ?_, sortBy_perm _ _⟩
    refine (sortBy_pairwise portLe_trans portLe_total e.ports).imp ?_
    intro a b hab
    simpa [portLe] using hab

def smallReport : List PortInfo :=
  [{ process_name := "svc", command := "",
     pids := [{ pid := 50, ports := "80, 443", user := "", cpu := "", mem := "" }] }]

theorem C1_grouping_invariant_witness :
    list_ports (.completed true failPsLines) (fun _ => none) id id = .ok smallReport ∧
    ((∀ r ∈ smallReport, ∀ pi ∈ r.pids, ∃ e,
        lookupKey (aggregateMap failPsLines (fun _ => none)) pi.pid = some e ∧
        r.process_name = e.process_name ∧ r.command = e.command)
      ∧ smallReport.Pairwise
          (fun a b => (a.process_name, a.command) ≠ (b.process_name, b.command))
      ∧ (reportPids smallReport).Perm (keysOf (aggregateMap failPsLines (fun _ => none)))) :=
  ⟨by decide, C1_grouping_invariant failPsLines (fun _ => none) id id smallReport
    (List.Perm.refl _) (List.Perm.refl _) (by decide)⟩

theorem C2_sort_invariants_witness :
    list_ports (.completed true failPsLines) (fun _ => none) id id = .ok smallReport ∧
    (smallReport.Pairwise (fun a b => rowLe a b = true)
      ∧ (∀ r ∈ smallReport, r.pids.Pairwise (fun a b => a.pid < b.pid))
      ∧ (∀ r ∈ smallReport, ∀ pi ∈ r.pids, ∃ e,
          lookupKey (aggregateMap failPsLines (fun _ => none)) pi.pid = some e ∧
          pi.ports = joinSep ", " (sortBy portLe e.ports) ∧
          (sortBy portLe e.ports).Pairwise (fun a b => portKey a ≤ portKey b) ∧
          (sortBy portLe e.ports).Perm e.ports)) :=
  ⟨by decide, C2_sort_invariants failPsLines (fun _ => none) id id smallReport
    (List.Perm.refl _) (List.Perm.refl _) (by decide)⟩

/-! ### Determinism (claim C3) -/

def tieLines : List String :=
  ["COMMAND PID USER FD TYPE DEVICE SIZE NODE NAME",
   "ABC 100 root 6u IPv4 1 2 TCP *:80",
   "abc 200 root 6u IPv4 3 4 TCP *:81"]

/-- C3 counterexample: with two groups whose process names differ only in
case, the report depends on the `process_groups` iteration order — `id` and
`List.reverse` are both permutations of any list, yet they give different
byte sequences on the same raw tool output — so the output is not a total
function of the raw output. -/
theorem C3_counterexample :
    (∀ l : List ((String × String) × List GTuple), (List.reverse l).Perm l) ∧
    list_ports (.completed true tieLines) (fun _ => none) id List.reverse ≠
      list_ports (.completed true tieLines) (fun _ => none) id id :=
  ⟨fun l => List.reverse_perm l, by decide⟩

theorem perm_nil_iff {α : Type} {l1 l2 : List α} (h : l1.Perm l2) : l1 = [] ↔ l2 = [] := by
  constructor
  · intro he
    subst he
    exact h.symm.eq_nil
  · intro he
    subst he
    exact h.eq_nil

theorem mem_keysOf_groupFold (entries : List (Nat × Entry)) (k : String × String) :
    k ∈ keysOf (groupFold entries) ↔
      entries.filter (fun pe => entryKey pe = k) ≠ [] := by
  have hiff : k ∈ keysOf (groupFold entries) ↔
      lookupKey (groupFold entries) k ≠ none := by
    rw [Ne, lookupKey_eq_none_iff]
    exact not_not.symm
  rw [hiff, lookupKey_groupFold]
  rcases hf : entries.filter (fun pe => entryKey pe = k) with _ | ⟨f, fs⟩
  · simp
  · simp

theorem keysOf_groupFold_perm {e1 e2 : List (Nat × Entry)} (he : e1.Perm e2) :
    (keysOf (groupFold e1)).Perm (keysOf (groupFold e2)) := by
  rw [List.perm_ext_iff_of_nodup (groupFold_keys_nodup e1) (groupFold_keys_nodup e2)]
  intro k
  rw [mem_keysOf_groupFold, mem_keysOf_groupFold]
  have hp := he.filter (fun pe => entryKey pe = k)
  rw [not_iff_not]
  exact perm_nil_iff hp

theorem filter_pids_nodup {entries : List (Nat × Entry)}
    (hnd : (keysOf entries).Nodup) (pred : Nat × Entry → Bool) :
    ((entries.filter pred).map (fun pe => pe.1)).Nodup :=
  List.Nodup.sublist ((List.filter_sublist _).map _) hnd

theorem sortBy_pidLe_eq_of_perm {ts1 ts2 : List GTuple} (hp : ts1.Perm ts2)
    (hnd : (ts1.map (fun t => t.1)).Nodup) :
    sortBy pidLe ts1 = sortBy pidLe ts2 := by
  refine eq_of_perm_of_pairwise
    ((sortBy_perm _ _).trans (hp.trans (sortBy_perm _ _).symm))
    (sortBy_pairwise pidLe_trans pidLe_total ts1)
    (sortBy_pairwise pidLe_trans pidLe_total ts2) ?_
  intro a ha b hb hab hba
  have ha2 : a ∈ ts1 := mem_sortBy.mp ha
  have hb2 : b ∈ ts1 := mem_sortBy.mp hb
  have heq : a.1 = b.1 := by
    have h1 : a.1 ≤ b.1 := by simpa [pidLe] using hab
    have h2 : b.1 ≤ a.1 := by simpa [pidLe] using hba
    omega
  exact List.inj_on_of_nodup_map hnd ha2 hb2 heq

theorem map_mkRow_eq_keys (gs : List ((String × String) × List GTuple))
    (hnd : (keysOf gs).Nodup) :
    gs.map mkRow = (keysOf gs).map (fun k => mkRow (k, (lookupKey gs k).getD [])) := by
  unfold keysOf
  rw [List.map_map]
  refine List.map_congr_left ?_
  intro g hg
  have hl : lookupKey gs g.1 = some g.2 := mem_lookupKey hnd hg
  show mkRow g = mkRow (g.1, (lookupKey gs g.1).getD [])
  rw [hl, Option.getD_some]

/-- C3 (amended): for fixed raw tool output the report is independent of
the two `HashMap` iteration orders — hence byte-identical across runs —
provided no two distinct group keys share the same case-insensitive process
name; the code leaves such row-level ties to iteration order (see the
counterexample). -/
theorem C3_determinism_amended (lines : List String) (ps : Nat → Option String)
    (s1 t1 : List (Nat × Entry) → List (Nat × Entry))
    (s2 t2 : List ((String × String) × List GTuple) → List ((String × String) × List GTuple))
    (hs1 : (s1 (aggregateMap lines ps)).Perm (aggregateMap lines ps))
    (hs2 : (s2 (groupFold (s1 (aggregateMap lines ps)))).Perm
        (groupFold (s1 (aggregateMap lines ps))))
    (ht1 : (t1 (aggregateMap lines ps)).Perm (aggregateMap lines ps))
    (ht2 : (t2 (groupFold (t1 (aggregateMap lines ps)))).Perm
        (groupFold (t1 (aggregateMap lines ps))))
    (hnames : ((keysOf (groupFold (aggregateMap lines ps))).map
        (fun k => toLowerStr k.1)).Nodup) :
    list_ports (.completed true lines) ps s1 s2 =
      list_ports (.completed true lines) ps t1 t2 := by
  have he : (s1 (aggregateMap lines ps)).Perm (t1 (aggregateMap lines ps)) :=
    hs1.trans ht1.symm
  have hkeyfun : ∀ k ∈ keysOf (groupFold (s1 (aggregateMap lines ps))),
      mkRow (k, (lookupKey (groupFold (s1 (aggregateMap lines ps))) k).getD []) =
      mkRow (k, (lookupKey (groupFold (t1 (aggregateMap lines ps))) k).getD []) := by
    intro k hk
    have hne1 : (s1 (aggregateMap lines ps)).filter (fun pe => entryKey pe = k) ≠ [] :=
      (mem_keysOf_groupFold _ _).mp hk
    have hpf : ((s1 (aggregateMap lines ps)).filter (fun pe => entryKey pe = k)).Perm
        ((t1 (aggregateMap lines ps)).filter (fun pe => entryKey pe = k)) := he.filter _
    rcases hf1 : (s1 (aggregateMap lines ps)).filter (fun pe => entryKey pe = k)
      with _ | ⟨f1, fs1⟩
    · exact absurd hf1 hne1
    rcases hf2 : (t1 (aggregateMap lines ps)).filter (fun pe => entryKey pe = k)
      with _ | ⟨f2, fs2⟩
    · rw [hf1, hf2] at hpf
      exact absurd hpf.eq_nil (by simp)
    have h1 := lookupKey_groupFold (s1 (aggregateMap lines ps)) k
    have h2 := lookupKey_groupFold (t1 (aggregateMap lines ps)) k
    rw [hf1] at h1
    rw [hf2] at h2
    rw [h1, h2]
    have hptup : ((f1 :: fs1).map (fun pe => mkTuple pe.1 pe.2)).Perm
        ((f2 :: fs2).map (fun pe => mkTuple pe.1 pe.2)) := by
      rw [← hf1, ← hf2]
      exact hpf.map _
    have hndk : (((f1 :: fs1).map (fun pe => mkTuple pe.1 pe.2)).map
        (fun t => t.1)).Nodup := by
      rw [List.map_map]
      have hx : ((f1 :: fs1).map (fun pe => pe.1)).Nodup := by
        rw [← hf1]
        exact filter_pids_nodup
          ((keysOf_perm hs1).nodup_iff.mpr (aggregateMap_keys_nodup lines ps)) _
      exact hx
    have hsorteq := sortBy_pidLe_eq_of_perm hptup hndk
    simp only [mkRow, Option.getD_some]
    rw [hsorteq]
  have hkp : (keysOf (groupFold (s1 (aggregateMap lines ps)))).Perm
      (keysOf (groupFold (t1 (aggregateMap lines ps)))) := keysOf_groupFold_perm he
  have hrows : ((s2 (groupFold (s1 (aggregateMap lines ps)))).map mkRow).Perm
      ((t2 (groupFold (t1 (aggregateMap lines ps)))).map mkRow) := by
    have ha : ((s2 (groupFold (s1 (aggregateMap lines ps)))).map mkRow).Perm
        ((groupFold (s1 (aggregateMap lines ps))).map mkRow) := hs2.map _
    have hb : ((t2 (groupFold (t1 (aggregateMap lines ps)))).map mkRow).Perm
        ((groupFold (t1 (aggregateMap lines ps))).map mkRow) := ht2.map _
    rw [map_mkRow_eq_keys _ (groupFold_keys_nodup _)] at ha
    rw [map_mkRow_eq_keys _ (groupFold_keys_nodup _)] at hb
    have hstep2 : (keysOf (groupFold (t1 (aggregateMap lines ps)))).map
        (fun k => mkRow (k, (lookupKey (groupFold (s1 (aggregateMap lines ps))) k).getD [])) =
        (keysOf (groupFold (t1 (aggregateMap lines ps)))).map
        (fun k => mkRow (k, (lookupKey (groupFold (t1 (aggregateMap lines ps))) k).getD [])) :=
      List.map_congr_left (fun k hk => hkeyfun k (hkp.symm.mem_iff.mp hk))
    exact ha.trans ((hstep2 ▸ (hkp.map _)).trans hb.symm)
  have hperm_low : (((s2 (groupFold (s1 (aggregateMap lines ps)))).map mkRow).map
      (fun r => toLowerStr r.process_name)).Perm
      ((keysOf (groupFold (aggregateMap lines ps))).map (fun k => toLowerStr k.1)) := by
    have hx1 : (((s2 (groupFold (s1 (aggregateMap lines ps)))).map mkRow).map
        (fun r => toLowerStr r.process_name)).Perm
        (((groupFold (s1 (aggregateMap lines ps))).map mkRow).map
          (fun r => toLowerStr r.process_name)) := (hs2.map _).map _
    have hx2 : ((groupFold (s1 (aggregateMap lines ps))).map mkRow).map
        (fun r => toLowerStr r.process_name) =
        (keysOf (groupFold (s1 (aggregateMap lines ps)))).map (fun k => toLowerStr k.1) := by
      unfold keysOf
      rw [List.map_map, List.map_map]
      rfl
    have hx3 : (keysOf (groupFold (s1 (aggregateMap lines ps)))).Perm
        (keysOf (groupFold (aggregateMap lines ps))) := keysOf_groupFold_perm hs1
    exact hx1.trans (hx2 ▸ (hx3.map _))
  have hndl : (((s2 (groupFold (s1 (aggregateMap lines ps)))).map mkRow).map
      (fun r => toLowerStr r.process_name)).Nodup := hperm_low.nodup_iff.mpr hnames
  show Except.ok (reportCore lines ps s1 s2) = Except.ok (reportCore lines ps t1 t2)
  refine congrArg Except.ok ?_
  unfold reportCore
  refine eq_of_perm_of_pairwise
    ((sortBy_perm _ _).trans (hrows.trans (sortBy_perm _ _).symm))
    (sortBy_pairwise rowLe_trans rowLe_total _)
    (sortBy_pairwise rowLe_trans rowLe_total _) ?_
  intro a ha b hb hab hba
  have ha2 : a ∈ (s2 (groupFold (s1 (aggregateMap lines ps)))).map mkRow := mem_sortBy.mp ha
  have hb2 : b ∈ (s2 (groupFold (s1 (aggregateMap lines ps)))).map mkRow := mem_sortBy.mp hb
  have hlow : toLowerStr a.process_name = toLowerStr b.process_name :=
    strLe_antisymm hab hba
  exact List.inj_on_of_nodup_map hndl ha2 hb2 hlow

theorem C3_determinism_amended_witness :
    ((id (aggregateMap dupPortLines (fun _ => none))).Perm
        (aggregateMap dupPortLines (fun _ => none))) ∧
    ((List.reverse (groupFold (id (aggregateMap dupPortLines (fun _ => none))))).Perm
        (groupFold (id (aggregateMap dupPortLines (fun _ => none))))) ∧
    (((keysOf (groupFold (aggregateMap dupPortLines (fun _ => none)))).map
        (fun k => toLowerStr k.1)).Nodup) ∧
    list_ports (.completed true dupPortLines) (fun _ => none) id List.reverse =
      list_ports (.completed true dupPortLines) (fun _ => none) id id :=
  ⟨List.Perm.refl _, List.reverse_perm _, by decide,
    C3_determinism_amended dupPortLines (fun _ => none) id id List.reverse id
      (List.Perm.refl _) (List.reverse_perm _) (List.Perm.refl _) (List.Perm.refl _)
      (by decide)⟩

end ProcessMonitor
